import Mathlib

/-! Multimodal video analysis front end: identifier extraction and session model.

A shallow embedding of `src/App.jsx`.

* JavaScript strings are modelled as `List Char`.  Both regular expressions of
  `extractVideoId` are matched without the `u` flag; the only characters they
  name are ASCII, so matching over characters and matching over UTF-16 code
  units select the same substring.
* The component state is the record `Session`; the timers started by the
  three `async` handlers are kept as counters of outstanding requests.
-/

namespace VideoAnalysis

/-- A JavaScript string. -/
abbrev Str := List Char

/-! ## `extractVideoId` (App.jsx, lines 21-32) -/

/-- The three alternatives of the non-capturing group of the first pattern,
`youtube\.com\/watch\?v=|youtu\.be\/|youtube\.com\/embed\/`, in source order. -/
def linkPrefixes : List Str :=
  ["youtube.com/watch?v=".toList, "youtu.be/".toList, "youtube.com/embed/".toList]

/-- The negated class `[^&\n?#]` of the first pattern. -/
def segChar (c : Char) : Bool :=
  !(c == '&' || c == '\n' || c == '?' || c == '#')

/-- The class `[a-zA-Z0-9_-]` of the second pattern. -/
def idChar (c : Char) : Bool :=
  (decide ('a' ≤ c) && decide (c ≤ 'z')) || (decide ('A' ≤ c) && decide (c ≤ 'Z')) ||
    (decide ('0' ≤ c) && decide (c ≤ '9')) || c == '_' || c == '-'

/-- Match the literal `p` at the head of the input; the result is the rest of
the input behind it. -/
def dropPrefix : Str → Str → Option Str
  | [], s => some s
  | _ :: _, [] => none
  | p :: ps, c :: cs => if p = c then dropPrefix ps cs else none

/-- The first pattern tried at one fixed start position: the alternatives are
tried in order, and behind the one that matches the greedy group
`([^&\n?#]+)` must consume at least one character.  The result is the text of
capture group 1. -/
def matchLinkHere : List Str → Str → Option Str
  | [], _ => none
  | p :: ps, s =>
    match dropPrefix p s with
    | some rest =>
      match rest.takeWhile segChar with
      | [] => matchLinkHere ps s
      | c :: run => some (c :: run)
    | none => matchLinkHere ps s

/-- The unanchored search `url.match(patterns[0])`: start positions are tried
from left to right and the first position with a match wins. -/
def searchLink : Str → Option Str
  | [] => matchLinkHere linkPrefixes []
  | c :: cs =>
    match matchLinkHere linkPrefixes (c :: cs) with
    | some id => some id
    | none => searchLink cs

/-- The counted repetition `cls{n}`: consume exactly `n` characters of the
class; the result is the consumed text and the rest of the input. -/
def matchRepeat (cls : Char → Bool) : Nat → Str → Option (Str × Str)
  | 0, s => some ([], s)
  | _ + 1, [] => none
  | n + 1, c :: cs =>
    if cls c then
      match matchRepeat cls n cs with
      | some (m, rest) => some (c :: m, rest)
      | none => none
    else none

/-- The second pattern `^([a-zA-Z0-9_-]{11})$`: anchored at both ends (no `m`
flag), so only start position 0 can match and the input must end after the
eleven characters. -/
def matchBareId (s : Str) : Option Str :=
  match matchRepeat idChar 11 s with
  | some (m, []) => some m
  | _ => none

/-- The array `patterns`, each entry as the function from the input to capture
group 1 of its match. -/
def patterns : List (Str → Option Str) := [searchLink, matchBareId]

/-- The function `extractVideoId`: the loop returns group 1 of the first
pattern that matches, and `null` (here `none`) when none does. -/
def extractVideoId (url : Str) : Option Str :=
  patterns.findSome? (fun pattern => pattern url)

/-! ## Specification vocabulary for the link rule -/

/-- The string `s` splits as `pre ++ p ++ tail` where `p` is one of the link
prefixes and `tail` starts with a character outside `&`, newline, `?`, `#`. -/
def LinkOccurrence (s pre p tail : Str) : Prop :=
  p ∈ linkPrefixes ∧ s = pre ++ p ++ tail ∧ ∃ c, tail.head? = some c ∧ segChar c = true

/-- The string is a bare identifier: exactly 11 characters of `[a-zA-Z0-9_-]`. -/
def BareId (s : Str) : Prop :=
  s.length = 11 ∧ ∀ c ∈ s, idChar c = true

/-- An occurrence is leftmost when no occurrence starts at a smaller offset. -/
def Leftmost (s pre : Str) : Prop :=
  ∀ pre' p' tail', LinkOccurrence s pre' p' tail' → pre.length ≤ pre'.length

/-! ## The component state (App.jsx, lines 4-17) -/

/-- An entry of `mockTimestamps`. -/
structure Timestamp where
  id : Nat
  title : Str
  time : Str
  seconds : Nat
  description : Str
  deriving DecidableEq, Repr

/-- An entry of the `citations` array of a chat message. -/
structure Citation where
  text : Str
  seconds : Nat
  deriving DecidableEq, Repr

/-- The `type` field of a chat message: `'system'`, `'user'` or `'ai'`. -/
inductive MessageType where
  | system
  | user
  | ai
  deriving DecidableEq, Repr

/-- A chat message.  `id` holds a reading of `Date.now()`, `timestamp` a reading
of `new Date()`; `citations` is absent on system and user messages. -/
structure ChatMessage where
  id : Nat
  type : MessageType
  content : Str
  timestamp : Nat
  citations : Option (List Citation)
  deriving DecidableEq, Repr

/-- An entry of `mockResults`. -/
structure SearchResult where
  id : Nat
  timestamp : Str
  seconds : Nat
  description : Str
  confidence : Nat
  deriving DecidableEq, Repr

/-- The values `currentStep` takes: `'landing'` (idle), `'processing'` and
`'loaded'` (ready). -/
inductive Phase where
  | landing
  | processing
  | loaded
  deriving DecidableEq, Repr

/-- The `useState` cells of the component, followed by the number of timers
each `async` handler has started and not yet seen fire (the outstanding
requests of each kind). -/
structure Session where
  videoUrl : Str
  videoId : Str
  isProcessing : Bool
  isVideoLoaded : Bool
  error : Str
  timestamps : List Timestamp
  chatMessages : List ChatMessage
  chatInput : Str
  isChatLoading : Bool
  searchQuery : Str
  searchResults : List SearchResult
  isSearching : Bool
  currentStep : Phase
  hoveredTimestamp : Option Nat
  analysisPending : Nat
  chatPending : Nat
  searchPending : Nat
  deriving DecidableEq, Repr

/-- The initial values passed to `useState`; no timer is running. -/
def Session.initial : Session where
  videoUrl := []
  videoId := []
  isProcessing := false
  isVideoLoaded := false
  error := []
  timestamps := []
  chatMessages := []
  chatInput := []
  isChatLoading := false
  searchQuery := []
  searchResults := []
  isSearching := false
  currentStep := Phase.landing
  hoveredTimestamp := none
  analysisPending := 0
  chatPending := 0
  searchPending := 0

/-! ## Submitting a video (App.jsx, lines 34-82) -/

/-- The message set by `validateYouTubeUrl` on failure. -/
def invalidUrlMessage : Str := "Please enter a valid YouTube URL".toList

/-- JavaScript truthiness of the value `extractVideoId` returns: `null` and the
empty string are falsy. -/
def truthy : Option Str → Bool
  | none => false
  | some [] => false
  | some (_ :: _) => true

/-- The function `validateYouTubeUrl`: the new state and the returned value,
`none` standing for `false`. -/
def validateYouTubeUrl (st : Session) (url : Str) : Session × Option Str :=
  let videoId := extractVideoId url
  if !truthy videoId then
    ({ st with error := invalidUrlMessage }, none)
  else
    ({ st with error := [] }, videoId)

/-- The constant `mockTimestamps`. -/
def mockTimestamps : List Timestamp :=
  [ { id := 1, title := "Introduction & Overview".toList, time := "0:00".toList,
      seconds := 0, description := "Video introduction and topic overview".toList },
    { id := 2, title := "Main Concepts Explained".toList, time := "2:15".toList,
      seconds := 135, description := "Core concepts and theoretical background".toList },
    { id := 3, title := "Practical Examples".toList, time := "5:30".toList,
      seconds := 330, description := "Real-world examples and demonstrations".toList },
    { id := 4, title := "Advanced Topics".toList, time := "8:45".toList,
      seconds := 525, description := "Advanced concepts and edge cases".toList },
    { id := 5, title := "Q&A and Discussion".toList, time := "12:20".toList,
      seconds := 740, description := "Questions and community discussion".toList },
    { id := 6, title := "Summary & Conclusion".toList, time := "15:10".toList,
      seconds := 910, description := "Key takeaways and final thoughts".toList } ]

/-- The system message placed in the chat when the analysis completes. -/
def systemMessage (now stamp : Nat) : ChatMessage where
  id := now
  type := MessageType.system
  content := "✨ Video analysis complete! Ask me anything about the content.".toList
  timestamp := stamp
  citations := none

/-- The function `handleVideoSubmit` up to its `await`: validation, then the
three state updates, then the 3000 ms timer is started. -/
def handleVideoSubmit (st : Session) : Session :=
  let (st1, extractedId) := validateYouTubeUrl st st.videoUrl
  match extractedId with
  | none => st1
  | some id =>
    if !truthy (some id) then st1
    else
      { st1 with
        isProcessing := true
        currentStep := Phase.processing
        videoId := id
        analysisPending := st1.analysisPending + 1 }

/-- The function `handleVideoSubmit` after its `await`, run when the timer
fires.  The awaited promise never rejects, so the `catch` block is not
reached; the `finally` block clears `isProcessing`. -/
def handleVideoSubmitResume (now stamp : Nat) (st : Session) : Session :=
  { st with
    timestamps := mockTimestamps
    isVideoLoaded := true
    currentStep := Phase.loaded
    chatMessages := [systemMessage now stamp]
    isProcessing := false
    analysisPending := st.analysisPending - 1 }

/-! ## Chat (App.jsx, lines 88-123) -/

/-- The characters `String.prototype.trim` strips: ECMAScript white space
(tab, VT, FF, BOM and the space separators) and line terminators. -/
def isWhiteSpace (c : Char) : Bool :=
  let n := c.toNat
  n == 0x0009 || n == 0x000A || n == 0x000B || n == 0x000C || n == 0x000D ||
    n == 0x0020 || n == 0x00A0 || n == 0x1680 || (0x2000 ≤ n && n ≤ 0x200A) ||
    n == 0x2028 || n == 0x2029 || n == 0x202F || n == 0x205F || n == 0x3000 ||
    n == 0xFEFF

/-- The method `trim`: white space removed from both ends. -/
def trim (s : Str) : Str :=
  ((s.dropWhile isWhiteSpace).reverse.dropWhile isWhiteSpace).reverse

/-- The object `userMessage`. -/
def userMessage (now stamp : Nat) (chatInput : Str) : ChatMessage where
  id := now
  type := MessageType.user
  content := chatInput
  timestamp := stamp
  citations := none

/-- The object `aiResponse`; its `id` is `Date.now() + 1`. -/
def aiResponse (now stamp : Nat) : ChatMessage where
  id := now + 1
  type := MessageType.ai
  content := ("Based on the video analysis, here's what I found: The topic you're " ++
    "asking about is covered in detail around the [2:15-3:30] mark in the " ++
    "\"Main Concepts\" section. You can also find related information discussed " ++
    "at [8:45-9:20] in the advanced topics section.").toList
  timestamp := stamp
  citations := some [ { text := "2:15-3:30".toList, seconds := 135 },
                      { text := "8:45-9:20".toList, seconds := 525 } ]

/-- The function `handleChatSubmit` up to its `await`. -/
def handleChatSubmit (now stamp : Nat) (st : Session) : Session :=
  if (trim st.chatInput).isEmpty || st.isChatLoading then st
  else
    { st with
      chatMessages := st.chatMessages ++ [userMessage now stamp st.chatInput]
      chatInput := []
      isChatLoading := true
      chatPending := st.chatPending + 1 }

/-- The function `handleChatSubmit` after its `await`. -/
def handleChatSubmitResume (now stamp : Nat) (st : Session) : Session :=
  { st with
    chatMessages := st.chatMessages ++ [aiResponse now stamp]
    isChatLoading := false
    chatPending := st.chatPending - 1 }

/-! ## Visual search (App.jsx, lines 125-164) -/

/-- The constant `mockResults`. -/
def mockResults : List SearchResult :=
  [ { id := 1, timestamp := "3:42".toList, seconds := 222,
      description := "Visual content matching your query".toList, confidence := 92 },
    { id := 2, timestamp := "7:18".toList, seconds := 438,
      description := "Similar visual elements found".toList, confidence := 87 },
    { id := 3, timestamp := "11:05".toList, seconds := 665,
      description := "Related visual content".toList, confidence := 81 } ]

/-- The function `handleFrameSearch` up to its `await`. -/
def handleFrameSearch (st : Session) : Session :=
  if (trim st.searchQuery).isEmpty || st.isSearching then st
  else
    { st with
      isSearching := true
      searchPending := st.searchPending + 1 }

/-- The function `handleFrameSearch` after its `await`. -/
def handleFrameSearchResume (st : Session) : Session :=
  { st with
    searchResults := mockResults
    isSearching := false
    searchPending := st.searchPending - 1 }

/-! ## Events of a session

Events are handled one at a time, and the component is rendered again before
the next one.  A user event can only occur on an element that is rendered:
the URL form exists only while `currentStep === 'landing'` (line 193), the
chat and search panels only while `currentStep === 'loaded'` (line 283).  A
completion can only occur while a timer of its kind is running. -/

/-- The events that change the state. -/
inductive Event where
  | setVideoUrl (value : Str)
  | videoSubmit
  | analysisDone (now stamp : Nat)
  | setChatInput (value : Str)
  | chatSubmit (now stamp : Nat)
  | chatDone (now stamp : Nat)
  | setSearchQuery (value : Str)
  | searchSubmit
  | searchDone
  | setHoveredTimestamp (value : Option Nat)
  deriving DecidableEq, Repr

/-- Whether the event can occur in the state.  The submit button is also
disabled while `isProcessing`, but the Enter key of the URL input is not, so
`videoSubmit` is only tied to the form being rendered; likewise for chat and
search, whose handlers carry their own guard.  The chat input is disabled
while `isChatLoading` (line 414). -/
def enabled (st : Session) : Event → Bool
  | Event.setVideoUrl _ => st.currentStep == Phase.landing
  | Event.videoSubmit => st.currentStep == Phase.landing
  | Event.analysisDone _ _ => decide (0 < st.analysisPending)
  | Event.setChatInput _ => st.currentStep == Phase.loaded && !st.isChatLoading
  | Event.chatSubmit _ _ => st.currentStep == Phase.loaded
  | Event.chatDone _ _ => decide (0 < st.chatPending)
  | Event.setSearchQuery _ => st.currentStep == Phase.loaded
  | Event.searchSubmit => st.currentStep == Phase.loaded
  | Event.searchDone => decide (0 < st.searchPending)
  | Event.setHoveredTimestamp _ => st.currentStep == Phase.loaded

/-- The effect of an event that occurs. -/
def fire (st : Session) : Event → Session
  | Event.setVideoUrl value => { st with videoUrl := value }
  | Event.videoSubmit => handleVideoSubmit st
  | Event.analysisDone now stamp => handleVideoSubmitResume now stamp st
  | Event.setChatInput value => { st with chatInput := value }
  | Event.chatSubmit now stamp => handleChatSubmit now stamp st
  | Event.chatDone now stamp => handleChatSubmitResume now stamp st
  | Event.setSearchQuery value => { st with searchQuery := value }
  | Event.searchSubmit => handleFrameSearch st
  | Event.searchDone => handleFrameSearchResume st
  | Event.setHoveredTimestamp value => { st with hoveredTimestamp := value }

/-- One step of the session: an event that cannot occur changes nothing. -/
def step (st : Session) (e : Event) : Session :=
  if enabled st e then fire st e else st

/-- The state after a sequence of events. -/
def run (st : Session) (events : List Event) : Session :=
  events.foldl step st

/-- The states a session can be in: those some sequence of events leads to
from the initial state. -/
def Reachable (st : Session) : Prop :=
  ∃ events, run Session.initial events = st

/-- What holds in every reachable state: the phase, the loading flags and the
outstanding requests agree, and nothing of the chat or the search exists
before the ready phase. -/
def Consistent (st : Session) : Prop :=
  st.isProcessing = (st.currentStep == Phase.processing) ∧
  st.analysisPending = (if st.currentStep = Phase.processing then 1 else 0) ∧
  st.chatPending = (if st.isChatLoading then 1 else 0) ∧
  st.searchPending = (if st.isSearching then 1 else 0) ∧
  (st.currentStep ≠ Phase.loaded →
    st.chatMessages = [] ∧ st.isChatLoading = false ∧ st.isSearching = false)

/-- The offsets of a timestamp list. -/
def offsets (ts : List Timestamp) : List Nat :=
  ts.map (fun t => t.seconds)

/-! ## The player URL (App.jsx, line 294) -/

/-- The `src` of the player frame: the template literal
`https://www.youtube.com/embed/` followed by `videoId` and `?enablejsapi=1`. -/
def embedUrl (videoId : Str) : Str :=
  "https://www.youtube.com/embed/".toList ++ videoId ++ "?enablejsapi=1".toList

/-! ## Concrete inputs -/

/-- The shortened link of the specification's example. -/
def demoLink : Str := "https://youtu.be/dQw4w9WgXcQ".toList

/-- The identifier of the specification's example. -/
def demoId : Str := "dQw4w9WgXcQ".toList

/-- An idle session whose URL field holds `not a url`. -/
def demoInvalid : Session :=
  { Session.initial with videoUrl := "not a url".toList }

/-- An idle session after a failed submission, the URL field now holding a
valid link. -/
def demoRetry : Session :=
  { Session.initial with videoUrl := demoLink, error := invalidUrlMessage }

/-- A ready session with a chat request outstanding and text in the chat
input. -/
def demoChatPending : Session :=
  { Session.initial with
    currentStep := Phase.loaded
    isVideoLoaded := true
    timestamps := mockTimestamps
    chatMessages := [systemMessage 1 1, userMessage 2 2 "first".toList]
    chatInput := "second".toList
    isChatLoading := true
    chatPending := 1 }

/-- A ready session with a search query entered and no search outstanding. -/
def demoSearch : Session :=
  { Session.initial with
    currentStep := Phase.loaded
    isVideoLoaded := true
    timestamps := mockTimestamps
    searchQuery := "a red car".toList }

/-- A result list left by an earlier query. -/
def demoPrior : List SearchResult :=
  [ { id := 7, timestamp := "0:05".toList, seconds := 5,
      description := "earlier".toList, confidence := 50 } ]

/-! ## Lemmas on the matchers -/

theorem dropPrefix_eq_some (p s r : Str) : dropPrefix p s = some r ↔ s = p ++ r := by
  induction p generalizing s with
  | nil => simp [dropPrefix, eq_comm]
  | cons a p ih =>
    cases s with
    | nil => simp [dropPrefix]
    | cons c cs =>
      by_cases h : a = c
      · simp [dropPrefix, h, ih]
      · simp [dropPrefix, h, Ne.symm h]

theorem takeWhile_eq_nil (f : Char → Bool) (l : Str) :
    l.takeWhile f = [] ↔ ∀ c, l.head? = some c → f c = false := by
  cases l with
  | nil => simp
  | cons a l =>
    cases h : f a <;> simp [List.takeWhile, h]

theorem head_dropWhile (f : Char → Bool) (l : Str) :
    ∀ c, (l.dropWhile f).head? = some c → f c = false := by
  induction l with
  | nil => simp
  | cons a l ih =>
    cases ha : f a with
    | true => simpa [List.dropWhile, ha] using ih
    | false => simp [List.dropWhile, ha]

theorem matchLinkHere_eq_none (ps : List Str) (s : Str) :
    matchLinkHere ps s = none ↔
      ∀ p ∈ ps, ∀ tail, s = p ++ tail → tail.takeWhile segChar = [] := by
  induction ps with
  | nil => simp [matchLinkHere]
  | cons p ps ih =>
    unfold matchLinkHere
    cases hd : dropPrefix p s with
    | none =>
      have hno : ∀ tail, s ≠ p ++ tail := fun tail ht =>
        by simp [(dropPrefix_eq_some p s tail).2 ht] at hd
      simp only [ih, List.mem_cons, forall_eq_or_imp]
      constructor
      · intro h
        exact ⟨fun tail ht => absurd ht (hno tail), h⟩
      · intro h
        exact h.2
    | some rest =>
      have hs : s = p ++ rest := (dropPrefix_eq_some p s rest).1 hd
      have hone : ∀ tail, s = p ++ tail → tail = rest := fun tail ht =>
        List.append_cancel_left (ht.symm.trans hs)
      simp only [List.mem_cons, forall_eq_or_imp]
      cases hr : rest.takeWhile segChar with
      | nil =>
        simp only [ih]
        constructor
        · intro h
          refine ⟨fun tail ht => ?_, h⟩
          rw [hone tail ht]
          exact hr
        · intro h
          exact h.2
      | cons c run =>
        simp only [false_iff, reduceCtorEq]
        intro h
        have := h.1 rest hs
        rw [hr] at this
        exact List.cons_ne_nil _ _ this

theorem matchLinkHere_eq_some (ps : List Str) (s r : Str)
    (h : matchLinkHere ps s = some r) :
    ∃ p ∈ ps, ∃ tail, s = p ++ tail ∧ tail.takeWhile segChar = r ∧ r ≠ [] := by
  induction ps with
  | nil => simp [matchLinkHere] at h
  | cons p ps ih =>
    unfold matchLinkHere at h
    cases hd : dropPrefix p s with
    | none =>
      simp only [hd] at h
      obtain ⟨q, hq, rest⟩ := ih h
      exact ⟨q, List.mem_cons_of_mem _ hq, rest⟩
    | some rest =>
      simp only [hd] at h
      have hs : s = p ++ rest := (dropPrefix_eq_some p s rest).1 hd
      cases hr : rest.takeWhile segChar with
      | nil =>
        simp only [hr] at h
        obtain ⟨q, hq, more⟩ := ih h
        exact ⟨q, List.mem_cons_of_mem _ hq, more⟩
      | cons c run =>
        simp only [hr] at h
        simp only [Option.some.injEq] at h
        exact ⟨p, List.mem_cons_self _ _, rest, hs, hr.trans h, by simp [← h]⟩

theorem linkPrefixes_prefix_free :
    ∀ p ∈ linkPrefixes, ∀ q ∈ linkPrefixes, p <+: q → p = q := by
  decide

theorem linkPrefixes_slash : ∀ p ∈ linkPrefixes, '/' ∈ p := by
  decide

theorem linkPrefixes_unique (p q tail tail' : Str) (hp : p ∈ linkPrefixes)
    (hq : q ∈ linkPrefixes) (h : p ++ tail = q ++ tail') : p = q ∧ tail = tail' := by
  have hpq : p = q := by
    have h1 : p <+: p ++ tail := List.prefix_append p tail
    have h2 : q <+: p ++ tail := h ▸ List.prefix_append q tail'
    rcases List.prefix_or_prefix_of_prefix h1 h2 with h3 | h3
    · exact linkPrefixes_prefix_free p hp q hq h3
    · exact (linkPrefixes_prefix_free q hq p hp h3).symm
  subst hpq
  exact ⟨rfl, List.append_cancel_left h⟩

theorem matchLinkHere_occurrence (s p tail : Str) (h : LinkOccurrence s [] p tail) :
    matchLinkHere linkPrefixes s = some (tail.takeWhile segChar) := by
  obtain ⟨hp, hs, c, hc, hseg⟩ := h
  simp only [List.nil_append] at hs
  cases hm : matchLinkHere linkPrefixes s with
  | none =>
    have h0 := (matchLinkHere_eq_none linkPrefixes s).1 hm p hp tail hs
    have := (takeWhile_eq_nil segChar tail).1 h0 c hc
    simp [hseg] at this
  | some r =>
    obtain ⟨q, hq, tail', hs', hr, _⟩ := matchLinkHere_eq_some linkPrefixes s r hm
    have := (linkPrefixes_unique p q tail tail' hp hq (hs.symm.trans hs')).2
    rw [this, hr]

theorem matchLinkHere_sound (s r : Str) (h : matchLinkHere linkPrefixes s = some r) :
    ∃ p tail, LinkOccurrence s [] p tail ∧ tail.takeWhile segChar = r ∧ r ≠ [] := by
  obtain ⟨p, hp, tail, hs, hr, hne⟩ := matchLinkHere_eq_some linkPrefixes s r h
  refine ⟨p, tail, ⟨hp, by simpa using hs, ?_⟩, hr, hne⟩
  cases tail with
  | nil => simp [← hr] at hne
  | cons c cs =>
    refine ⟨c, rfl, ?_⟩
    cases hc : segChar c with
    | true => rfl
    | false => simp [List.takeWhile, hc] at hr; exact absurd hr hne

theorem searchLink_of_here (s r : Str) (h : matchLinkHere linkPrefixes s = some r) :
    searchLink s = some r := by
  cases s with
  | nil => simpa [searchLink] using h
  | cons c cs => simp [searchLink, h]

theorem searchLink_cons_of_none (c : Char) (cs : Str)
    (h : matchLinkHere linkPrefixes (c :: cs) = none) :
    searchLink (c :: cs) = searchLink cs := by
  simp [searchLink, h]

theorem LinkOccurrence.cons {s pre p tail : Str} (a : Char)
    (h : LinkOccurrence s pre p tail) : LinkOccurrence (a :: s) (a :: pre) p tail := by
  obtain ⟨hp, hs, hc⟩ := h
  exact ⟨hp, by simp [hs], hc⟩

theorem searchLink_sound (s r : Str) (h : searchLink s = some r) :
    ∃ pre p tail, LinkOccurrence s pre p tail ∧ tail.takeWhile segChar = r ∧ r ≠ [] := by
  induction s with
  | nil =>
    obtain ⟨p, tail, hocc, hr⟩ := matchLinkHere_sound [] r (by simpa [searchLink] using h)
    exact ⟨[], p, tail, hocc, hr⟩
  | cons c cs ih =>
    cases hm : matchLinkHere linkPrefixes (c :: cs) with
    | some r' =>
      have hr' : r' = r := by
        rw [searchLink_of_here _ _ hm] at h
        exact Option.some.inj h
      obtain ⟨p, tail, hocc, hr⟩ := matchLinkHere_sound (c :: cs) r' hm
      exact ⟨[], p, tail, hocc, hr' ▸ hr⟩
    | none =>
      rw [searchLink_cons_of_none c cs hm] at h
      obtain ⟨pre, p, tail, hocc, hr⟩ := ih h
      exact ⟨c :: pre, p, tail, hocc.cons c, hr⟩

theorem searchLink_leftmost (s pre p tail : Str) (h : LinkOccurrence s pre p tail)
    (hleft : Leftmost s pre) : searchLink s = some (tail.takeWhile segChar) := by
  induction pre generalizing s with
  | nil => exact searchLink_of_here s _ (matchLinkHere_occurrence s p tail h)
  | cons a pre ih =>
    obtain ⟨hp, hs, hc⟩ := h
    have hs' : s = a :: (pre ++ p ++ tail) := by simpa using hs
    subst hs'
    have hnone : matchLinkHere linkPrefixes (a :: (pre ++ p ++ tail)) = none := by
      cases hm : matchLinkHere linkPrefixes (a :: (pre ++ p ++ tail)) with
      | none => rfl
      | some r =>
        obtain ⟨q, t, hocc, _⟩ := matchLinkHere_sound _ r hm
        have := hleft [] q t hocc
        simp at this
    rw [searchLink_cons_of_none _ _ hnone]
    refine ih (pre ++ p ++ tail) ⟨hp, rfl, hc⟩ ?_
    intro pre' p' tail' hocc
    have := hleft (a :: pre') p' tail' (hocc.cons a)
    simpa using this

theorem exists_leftmost (s : Str) (h : ∃ pre p tail, LinkOccurrence s pre p tail) :
    ∃ pre p tail, LinkOccurrence s pre p tail ∧ Leftmost s pre := by
  classical
  have hex : ∃ n, ∃ pre p tail, LinkOccurrence s pre p tail ∧ pre.length = n := by
    obtain ⟨pre, p, tail, hocc⟩ := h
    exact ⟨pre.length, pre, p, tail, hocc, rfl⟩
  obtain ⟨pre, p, tail, hocc, hlen⟩ := Nat.find_spec hex
  refine ⟨pre, p, tail, hocc, ?_⟩
  intro pre' p' tail' hocc'
  rw [hlen]
  exact Nat.find_min' hex ⟨pre', p', tail', hocc', rfl⟩

theorem searchLink_eq_none (s : Str) :
    searchLink s = none ↔ ¬ ∃ pre p tail, LinkOccurrence s pre p tail := by
  constructor
  · intro hn hex
    obtain ⟨pre, p, tail, hocc, hleft⟩ := exists_leftmost s hex
    rw [searchLink_leftmost s pre p tail hocc hleft] at hn
    exact Option.noConfusion hn
  · intro hno
    cases hs : searchLink s with
    | none => rfl
    | some r =>
      obtain ⟨pre, p, tail, hocc, _⟩ := searchLink_sound s r hs
      exact absurd ⟨pre, p, tail, hocc⟩ hno

theorem matchRepeat_eq_some (cls : Char → Bool) (n : Nat) (s m r : Str) :
    matchRepeat cls n s = some (m, r) ↔
      s = m ++ r ∧ m.length = n ∧ ∀ c ∈ m, cls c = true := by
  induction n generalizing s m r with
  | zero =>
    simp only [matchRepeat, Option.some.injEq, Prod.mk.injEq, List.length_eq_zero]
    constructor
    · rintro ⟨rfl, rfl⟩
      simp
    · rintro ⟨hs, rfl, _⟩
      simp [hs]
  | succ n ih =>
    cases s with
    | nil =>
      simp only [matchRepeat, false_iff, reduceCtorEq]
      rintro ⟨hs, hlen, _⟩
      have : m = [] := (List.append_eq_nil.1 hs.symm).1
      simp [this] at hlen
    | cons c cs =>
      cases hc : cls c with
      | false =>
        simp only [matchRepeat, hc, false_iff, reduceCtorEq, Bool.false_eq_true, if_false]
        rintro ⟨hs, hlen, hall⟩
        cases m with
        | nil => simp at hlen
        | cons a m =>
          simp only [List.cons_append, List.cons.injEq] at hs
          have := hall a (List.mem_cons_self _ _)
          rw [← hs.1, hc] at this
          exact Bool.noConfusion this
      | true =>
        simp only [matchRepeat, hc, if_true]
        cases hrec : matchRepeat cls n cs with
        | none =>
          simp only [false_iff, reduceCtorEq]
          rintro ⟨hs, hlen, hall⟩
          cases m with
          | nil => simp at hlen
          | cons a m =>
            simp only [List.cons_append, List.cons.injEq] at hs
            have : matchRepeat cls n cs = some (m, r) :=
              (ih cs m r).2 ⟨hs.2, by simpa using hlen,
                fun x hx => hall x (List.mem_cons_of_mem _ hx)⟩
            rw [hrec] at this
            exact Option.noConfusion this
        | some mr =>
          obtain ⟨m', r'⟩ := mr
          obtain ⟨hs', hlen', hall'⟩ := (ih cs m' r').1 hrec
          simp only [Option.some.injEq, Prod.mk.injEq]
          constructor
          · rintro ⟨rfl, rfl⟩
            refine ⟨by simp [hs'], by simp [hlen'], ?_⟩
            intro x hx
            rcases List.mem_cons.1 hx with rfl | hx
            · exact hc
            · exact hall' x hx
          · rintro ⟨hs, hlen, hall⟩
            cases m with
            | nil => simp at hlen
            | cons a m =>
              simp only [List.cons_append, List.cons.injEq] at hs
              have : matchRepeat cls n cs = some (m, r) :=
                (ih cs m r).2 ⟨hs.2, by simpa using hlen,
                  fun x hx => hall x (List.mem_cons_of_mem _ hx)⟩
              rw [hrec] at this
              simp only [Option.some.injEq, Prod.mk.injEq] at this
              exact ⟨by rw [hs.1, this.1], this.2⟩

theorem matchBareId_eq_some (s m : Str) : matchBareId s = some m ↔ m = s ∧ BareId s := by
  unfold matchBareId BareId
  cases hrec : matchRepeat idChar 11 s with
  | none =>
    simp only [false_iff, reduceCtorEq]
    rintro ⟨rfl, hlen, hall⟩
    have := (matchRepeat_eq_some idChar 11 m m []).2 ⟨by simp, hlen, hall⟩
    rw [hrec] at this
    exact Option.noConfusion this
  | some mr =>
    obtain ⟨m', r'⟩ := mr
    obtain ⟨hs, hlen, hall⟩ := (matchRepeat_eq_some idChar 11 s m' r').1 hrec
    cases r' with
    | nil =>
      simp only [List.append_nil] at hs
      subst hs
      simp only [Option.some.injEq]
      constructor
      · rintro rfl
        exact ⟨rfl, hlen, hall⟩
      · rintro ⟨rfl, _⟩
        rfl
    | cons a r' =>
      simp only [false_iff, reduceCtorEq]
      rintro ⟨rfl, hlen2, _⟩
      rw [hs] at hlen2
      simp [hlen] at hlen2

theorem matchBareId_eq_none (s : Str) : matchBareId s = none ↔ ¬ BareId s := by
  constructor
  · intro hn hb
    have := (matchBareId_eq_some s s).2 ⟨rfl, hb⟩
    rw [hn] at this
    exact Option.noConfusion this
  · intro hb
    cases hm : matchBareId s with
    | none => rfl
    | some m => exact absurd ((matchBareId_eq_some s m).1 hm).2 hb

theorem extractVideoId_eq (s : Str) :
    extractVideoId s =
      match searchLink s with
      | some id => some id
      | none => matchBareId s := by
  unfold extractVideoId patterns
  cases h1 : searchLink s with
  | none =>
    cases h2 : matchBareId s <;> simp [List.findSome?, h1, h2]
  | some r => simp [List.findSome?, h1]

theorem LinkOccurrence.slash_mem {s pre p tail : Str} (h : LinkOccurrence s pre p tail) :
    '/' ∈ s := by
  obtain ⟨hp, hs, _⟩ := h
  rw [hs]
  simp [linkPrefixes_slash p hp]

theorem BareId.no_link {s : Str} (h : BareId s) :
    ¬ ∃ pre p tail, LinkOccurrence s pre p tail := by
  rintro ⟨pre, p, tail, hocc⟩
  have := h.2 '/' hocc.slash_mem
  revert this
  decide

theorem extractVideoId_ne_nil (s r : Str) (h : extractVideoId s = some r) : r ≠ [] := by
  rw [extractVideoId_eq] at h
  cases hs : searchLink s with
  | some r' =>
    simp only [hs, Option.some.injEq] at h
    obtain ⟨_, _, _, _, _, hne⟩ := searchLink_sound s r' hs
    exact h ▸ hne
  | none =>
    simp only [hs] at h
    obtain ⟨rfl, hlen, _⟩ := (matchBareId_eq_some s r).1 h
    intro hnil
    simp [hnil] at hlen

/-! ## Lemmas on the handlers -/

theorem truthy_extractVideoId (s id : Str) (h : extractVideoId s = some id) :
    truthy (some id) = true := by
  have hne := extractVideoId_ne_nil s id h
  cases id with
  | nil => exact absurd rfl hne
  | cons c cs => rfl

theorem handleVideoSubmit_invalid (st : Session) (h : extractVideoId st.videoUrl = none) :
    handleVideoSubmit st = { st with error := invalidUrlMessage } := by
  simp [handleVideoSubmit, validateYouTubeUrl, h, truthy]

theorem handleVideoSubmit_valid (st : Session) (id : Str)
    (h : extractVideoId st.videoUrl = some id) :
    handleVideoSubmit st =
      { st with
        error := []
        isProcessing := true
        currentStep := Phase.processing
        videoId := id
        analysisPending := st.analysisPending + 1 } := by
  have ht := truthy_extractVideoId st.videoUrl id h
  simp [handleVideoSubmit, validateYouTubeUrl, h, ht]

theorem consistent_initial : Consistent Session.initial := by
  simp [Consistent, Session.initial]

theorem consistent_step (st : Session) (e : Event) (h : Consistent st) :
    Consistent (step st e) := by
  unfold step
  by_cases hen : enabled st e = true
  · rw [if_pos hen]
    obtain ⟨h1, h2, h3, h4, h5⟩ := h
    cases e with
    | setVideoUrl v => exact ⟨h1, h2, h3, h4, h5⟩
    | setChatInput v => exact ⟨h1, h2, h3, h4, h5⟩
    | setSearchQuery v => exact ⟨h1, h2, h3, h4, h5⟩
    | setHoveredTimestamp v => exact ⟨h1, h2, h3, h4, h5⟩
    | videoSubmit =>
      have hl : st.currentStep = Phase.landing := by simpa [enabled] using hen
      have h5' := h5 (by simp [hl])
      cases hx : extractVideoId st.videoUrl with
      | none =>
        simp only [fire, handleVideoSubmit_invalid st hx]
        exact ⟨h1, h2, h3, h4, h5⟩
      | some id =>
        simp only [fire, handleVideoSubmit_valid st id hx]
        exact ⟨by simp, by simp [h2, hl], h3, h4, fun _ => h5'⟩
    | analysisDone now stamp =>
      have hp : 0 < st.analysisPending := by simpa [enabled] using hen
      have hproc : st.currentStep = Phase.processing := by
        by_contra hne
        rw [if_neg hne] at h2
        omega
      simp only [fire, handleVideoSubmitResume]
      refine ⟨by simp, ?_, h3, h4, by simp⟩
      simp [h2, hproc]
    | chatSubmit now stamp =>
      have hl : st.currentStep = Phase.loaded := by simpa [enabled] using hen
      simp only [fire, handleChatSubmit]
      split
      · exact ⟨h1, h2, h3, h4, h5⟩
      · rename_i hg
        simp only [Bool.or_eq_true, not_or, Bool.not_eq_true] at hg
        refine ⟨h1, h2, ?_, h4, by simp [hl]⟩
        simp [h3, hg.2]
    | chatDone now stamp =>
      have hp : 0 < st.chatPending := by simpa [enabled] using hen
      have hload : st.isChatLoading = true := by
        cases hc : st.isChatLoading with
        | true => rfl
        | false => rw [hc] at h3; simp at h3; omega
      have hl : st.currentStep = Phase.loaded := by
        by_contra hne
        have := (h5 hne).2.1
        rw [hload] at this
        exact Bool.noConfusion this
      simp only [fire, handleChatSubmitResume]
      refine ⟨h1, h2, ?_, h4, by simp [hl]⟩
      simp [h3, hload]
    | searchSubmit =>
      have hl : st.currentStep = Phase.loaded := by simpa [enabled] using hen
      simp only [fire, handleFrameSearch]
      split
      · exact ⟨h1, h2, h3, h4, h5⟩
      · rename_i hg
        simp only [Bool.or_eq_true, not_or, Bool.not_eq_true] at hg
        refine ⟨h1, h2, h3, ?_, by simp [hl]⟩
        simp [h4, hg.2]
    | searchDone =>
      have hp : 0 < st.searchPending := by simpa [enabled] using hen
      have hload : st.isSearching = true := by
        cases hc : st.isSearching with
        | true => rfl
        | false => rw [hc] at h4; simp at h4; omega
      have hl : st.currentStep = Phase.loaded := by
        by_contra hne
        have := (h5 hne).2.2
        rw [hload] at this
        exact Bool.noConfusion this
      simp only [fire, handleFrameSearchResume]
      refine ⟨h1, h2, h3, ?_, by simp [hl]⟩
      simp [h4, hload]
  · rw [if_neg hen]
    exact h

theorem consistent_run (st : Session) (events : List Event) (h : Consistent st) :
    Consistent (run st events) := by
  induction events generalizing st with
  | nil => exact h
  | cons e es ih => exact ih (step st e) (consistent_step st e h)

theorem reachable_consistent (st : Session) (h : Reachable st) : Consistent st := by
  obtain ⟨events, rfl⟩ := h
  exact consistent_run _ events consistent_initial

/-! ## Identifier extraction -/

/-- C1: when `s` contains a link prefix directly followed by a character
outside `&`, newline, `?`, `#`, a leftmost such occurrence exists, and for
every leftmost occurrence `s = pre ++ p ++ tail` the function `extractVideoId`
returns the longest run of such characters at the head of `tail`: the run is
not empty, it stops at the end of the input or at an excluded character, it is
a contiguous part of `s`, it is strictly shorter than `s`, and so the result is
not the whole string. -/
theorem extractVideoId_link (s : Str) (h : ∃ pre p tail, LinkOccurrence s pre p tail) :
    (∃ pre p tail, LinkOccurrence s pre p tail ∧ Leftmost s pre) ∧
    ∀ pre p tail, LinkOccurrence s pre p tail → Leftmost s pre →
      extractVideoId s = some (tail.takeWhile segChar) ∧
      tail.takeWhile segChar ≠ [] ∧
      (∀ c ∈ tail.takeWhile segChar, segChar c = true) ∧
      (∀ c, (tail.dropWhile segChar).head? = some c → segChar c = false) ∧
      s = pre ++ p ++ tail.takeWhile segChar ++ tail.dropWhile segChar ∧
      tail.takeWhile segChar <:+: s ∧
      (tail.takeWhile segChar).length < s.length ∧
      extractVideoId s ≠ some s := by
  refine ⟨exists_leftmost s h, ?_⟩
  intro pre p tail hocc hleft
  have hres : extractVideoId s = some (tail.takeWhile segChar) := by
    rw [extractVideoId_eq, searchLink_leftmost s pre p tail hocc hleft]
  obtain ⟨hp, hs, c, hc, hseg⟩ := hocc
  have hsplit : s = pre ++ p ++ tail.takeWhile segChar ++ tail.dropWhile segChar := by
    rw [List.append_assoc, List.takeWhile_append_dropWhile]
    exact hs
  have hpne : 0 < p.length := by
    have : ∀ q ∈ linkPrefixes, 0 < q.length := by decide
    exact this p hp
  have hlen : (tail.takeWhile segChar).length < s.length := by
    have := congrArg List.length hsplit
    simp only [List.length_append] at this
    omega
  refine ⟨hres, ?_, ?_, ?_, hsplit, ?_, hlen, ?_⟩
  · intro hnil
    have := (takeWhile_eq_nil segChar tail).1 hnil c hc
    rw [hseg] at this
    exact Bool.noConfusion this
  · intro x hx
    exact (List.mem_takeWhile_imp hx)
  · exact head_dropWhile segChar tail
  · exact ⟨pre ++ p, tail.dropWhile segChar, hsplit.symm⟩
  · rw [hres]
    intro heq
    have := congrArg List.length (Option.some.inj heq)
    omega

/-- Witness of C1 at `https://youtu.be/dQw4w9WgXcQ`: the leftmost occurrence is
followed by the run `dQw4w9WgXcQ`, which is what is returned. -/
theorem extractVideoId_link_witness :
    ∃ pre p tail, LinkOccurrence demoLink pre p tail ∧ Leftmost demoLink pre ∧
      tail.takeWhile segChar = demoId ∧ extractVideoId demoLink = some demoId := by
  have hocc : LinkOccurrence demoLink "https://".toList "youtu.be/".toList demoId :=
    ⟨by decide, by decide, 'd', by decide, by decide⟩
  obtain ⟨⟨pre, p, tail, ho, hl⟩, hall⟩ := extractVideoId_link demoLink ⟨_, _, _, hocc⟩
  have hres := (hall pre p tail ho hl).1
  have hval : extractVideoId demoLink = some demoId := by decide
  exact ⟨pre, p, tail, ho, hl, Option.some.inj (hres.symm.trans hval), hval⟩

/-- C2: a string of exactly 11 characters, each from `A-Z`, `a-z`, `0-9`, `_`
and `-`, is returned unchanged by `extractVideoId`. -/
theorem extractVideoId_bare (s : Str) (hlen : s.length = 11)
    (hall : ∀ c ∈ s, idChar c = true) : extractVideoId s = some s := by
  have hb : BareId s := ⟨hlen, hall⟩
  rw [extractVideoId_eq, (searchLink_eq_none s).2 hb.no_link]
  exact (matchBareId_eq_some s s).2 ⟨rfl, hb⟩

/-- Witness of C2 at `dQw4w9WgXcQ`. -/
theorem extractVideoId_bare_witness : extractVideoId demoId = some demoId :=
  extractVideoId_bare demoId (by decide) (by decide)

/-- C3: `extractVideoId` returns `null` exactly for the strings that contain no
link prefix directly followed by a character outside `&`, newline, `?`, `#`
and that are not, as a whole, 11 characters of `[A-Za-z0-9_-]`; `not a url` is
such a string. -/
theorem extractVideoId_eq_none_iff :
    (∀ s : Str, extractVideoId s = none ↔
      (¬ ∃ pre p tail, LinkOccurrence s pre p tail) ∧
        ¬ (s.length = 11 ∧ ∀ c ∈ s, idChar c = true)) ∧
    extractVideoId "not a url".toList = none := by
  refine ⟨fun s => ?_, by decide⟩
  rw [extractVideoId_eq]
  cases hs : searchLink s with
  | none =>
    have hno := (searchLink_eq_none s).1 hs
    simp only [matchBareId_eq_none, BareId, hno, not_false_eq_true, true_and]
  | some r =>
    obtain ⟨pre, p, tail, hocc, _⟩ := searchLink_sound s r hs
    simp only [false_iff, reduceCtorEq, not_and, not_not]
    intro hno
    exact absurd ⟨pre, p, tail, hocc⟩ hno

/-! ## Session transitions -/

/-- C4: in the idle phase, when `extractVideoId` fails on the entered string,
a video submission only sets the error message: the phase stays idle, the
message is not empty, no analysis request is started, `isProcessing` keeps its
value (which is `false` in every reachable idle state), and `videoId`,
`timestamps`, `chatMessages`, `searchResults` and `isVideoLoaded` are
unchanged. -/
theorem videoSubmit_invalid (st : Session) (hidle : st.currentStep = Phase.landing)
    (hfail : extractVideoId st.videoUrl = none) :
    step st Event.videoSubmit = { st with error := invalidUrlMessage } ∧
    (step st Event.videoSubmit).currentStep = Phase.landing ∧
    (step st Event.videoSubmit).error ≠ [] ∧
    (step st Event.videoSubmit).isProcessing = st.isProcessing ∧
    (Reachable st → (step st Event.videoSubmit).isProcessing = false) ∧
    (step st Event.videoSubmit).analysisPending = st.analysisPending ∧
    (step st Event.videoSubmit).videoId = st.videoId ∧
    (step st Event.videoSubmit).timestamps = st.timestamps ∧
    (step st Event.videoSubmit).chatMessages = st.chatMessages ∧
    (step st Event.videoSubmit).searchResults = st.searchResults ∧
    (step st Event.videoSubmit).isVideoLoaded = st.isVideoLoaded := by
  have hstep : step st Event.videoSubmit = { st with error := invalidUrlMessage } := by
    simp [step, enabled, hidle, fire, handleVideoSubmit_invalid st hfail]
  rw [hstep]
  refine ⟨rfl, hidle, ?_, rfl, ?_, rfl, rfl, rfl, rfl, rfl, rfl⟩
  · show invalidUrlMessage ≠ []
    decide
  intro hr
  have := (reachable_consistent st hr).1
  simpa [hidle] using this

/-- Witness of C4: the URL field holds `not a url`. -/
theorem videoSubmit_invalid_witness :
    step demoInvalid Event.videoSubmit = { demoInvalid with error := invalidUrlMessage } :=
  (videoSubmit_invalid demoInvalid (by decide) (by decide)).1

/-- C5: in the idle phase, whatever the error message, when `extractVideoId`
succeeds with `id`, a video submission moves the phase to processing with
`videoId = id`, the error cleared and `isProcessing` set; the completion that
follows moves the phase to ready with `isProcessing` cleared, the error still
empty, and a non-empty timestamp list with strictly ascending offsets. -/
theorem videoSubmit_valid (st : Session) (id : Str) (now stamp : Nat)
    (hidle : st.currentStep = Phase.landing)
    (hid : extractVideoId st.videoUrl = some id) :
    (step st Event.videoSubmit).currentStep = Phase.processing ∧
    (step st Event.videoSubmit).videoId = id ∧
    (step st Event.videoSubmit).error = [] ∧
    (step st Event.videoSubmit).isProcessing = true ∧
    enabled (step st Event.videoSubmit) (Event.analysisDone now stamp) = true ∧
    (step (step st Event.videoSubmit) (Event.analysisDone now stamp)).currentStep
      = Phase.loaded ∧
    (step (step st Event.videoSubmit) (Event.analysisDone now stamp)).isProcessing
      = false ∧
    (step (step st Event.videoSubmit) (Event.analysisDone now stamp)).error = [] ∧
    (step (step st Event.videoSubmit) (Event.analysisDone now stamp)).videoId = id ∧
    (step (step st Event.videoSubmit) (Event.analysisDone now stamp)).timestamps ≠ [] ∧
    List.Pairwise (fun a b => a < b)
      (offsets (step (step st Event.videoSubmit) (Event.analysisDone now stamp)).timestamps) := by
  have hstep : step st Event.videoSubmit = handleVideoSubmit st := by
    simp [step, enabled, hidle, fire]
  have hen : enabled (step st Event.videoSubmit) (Event.analysisDone now stamp) = true := by
    rw [hstep, handleVideoSubmit_valid st id hid]
    simp [enabled]
  have hdone : step (step st Event.videoSubmit) (Event.analysisDone now stamp)
      = handleVideoSubmitResume now stamp (step st Event.videoSubmit) := by
    unfold step at hen ⊢
    rw [if_pos hen]
    rfl
  rw [hdone, hstep, handleVideoSubmit_valid st id hid]
  refine ⟨rfl, rfl, rfl, rfl, ?_, rfl, rfl, rfl, rfl, ?_, ?_⟩
  · rw [← handleVideoSubmit_valid st id hid, ← hstep]
    exact hen
  · show mockTimestamps ≠ []
    decide
  · show List.Pairwise (fun a b => a < b) (offsets mockTimestamps)
    decide

/-- Witness of C5: a valid link is submitted after a failed submission left
its error message. -/
theorem videoSubmit_valid_witness :
    (step demoRetry Event.videoSubmit).videoId = demoId ∧
    (step (step demoRetry Event.videoSubmit) (Event.analysisDone 5 6)).currentStep
      = Phase.loaded :=
  have h := videoSubmit_valid demoRetry demoId 5 6 (by decide) (by decide)
  ⟨h.2.1, h.2.2.2.2.2.1⟩

/-- C6: along every run from the initial state, every step keeps the phase or
moves it idle to processing or processing to ready; none leaves the ready
phase, and none moves processing back to idle. -/
theorem phase_forward_only (events : List Event) (e : Event) :
    ((step (run Session.initial events) e).currentStep
        = (run Session.initial events).currentStep ∨
      ((run Session.initial events).currentStep = Phase.landing ∧
        (step (run Session.initial events) e).currentStep = Phase.processing) ∨
      ((run Session.initial events).currentStep = Phase.processing ∧
        (step (run Session.initial events) e).currentStep = Phase.loaded)) ∧
    ((run Session.initial events).currentStep = Phase.loaded →
      (step (run Session.initial events) e).currentStep = Phase.loaded) ∧
    ((run Session.initial events).currentStep = Phase.processing →
      (step (run Session.initial events) e).currentStep ≠ Phase.landing) := by
  have hcons := consistent_run Session.initial events consistent_initial
  generalize run Session.initial events = st at hcons
  have hmain : (step st e).currentStep = st.currentStep ∨
      (st.currentStep = Phase.landing ∧ (step st e).currentStep = Phase.processing) ∨
      (st.currentStep = Phase.processing ∧ (step st e).currentStep = Phase.loaded) := by
    unfold step
    by_cases hen : enabled st e = true
    · rw [if_pos hen]
      cases e with
      | setVideoUrl v => exact Or.inl rfl
      | setChatInput v => exact Or.inl rfl
      | setSearchQuery v => exact Or.inl rfl
      | setHoveredTimestamp v => exact Or.inl rfl
      | videoSubmit =>
        have hl : st.currentStep = Phase.landing := by simpa [enabled] using hen
        cases hx : extractVideoId st.videoUrl with
        | none =>
          have hf : fire st Event.videoSubmit = handleVideoSubmit st := rfl
          rw [hf, handleVideoSubmit_invalid st hx]
          exact Or.inl rfl
        | some id =>
          have hf : fire st Event.videoSubmit = handleVideoSubmit st := rfl
          rw [hf, handleVideoSubmit_valid st id hx]
          exact Or.inr (Or.inl ⟨hl, rfl⟩)
      | analysisDone now stamp =>
        have hp : 0 < st.analysisPending := by simpa [enabled] using hen
        have hproc : st.currentStep = Phase.processing := by
          by_contra hne
          have h2 := hcons.2.1
          rw [if_neg hne] at h2
          omega
        exact Or.inr (Or.inr ⟨hproc, rfl⟩)
      | chatSubmit now stamp =>
        simp only [fire, handleChatSubmit]
        split <;> exact Or.inl rfl
      | chatDone now stamp => exact Or.inl rfl
      | searchSubmit =>
        simp only [fire, handleFrameSearch]
        split <;> exact Or.inl rfl
      | searchDone => exact Or.inl rfl
    · rw [if_neg hen]
      exact Or.inl rfl
  refine ⟨hmain, ?_, ?_⟩
  · intro hl
    rcases hmain with h | ⟨h, _⟩ | ⟨h, _⟩
    · rw [h, hl]
    · rw [hl] at h; exact Phase.noConfusion h
    · rw [hl] at h; exact Phase.noConfusion h
  · intro hp hland
    rcases hmain with h | ⟨h, _⟩ | ⟨_, h⟩
    · rw [hland, hp] at h; exact Phase.noConfusion h
    · rw [hp] at h; exact Phase.noConfusion h
    · rw [hland] at h; exact Phase.noConfusion h

/-- C7: while a chat response is pending, `handleChatSubmit` returns the state
it was given, whatever the chat input: no message is appended, the input is
not cleared and no request is started; the same holds of the chat-submit
step. -/
theorem chatSubmit_pending_noop (st : Session) (now stamp : Nat)
    (hpending : st.isChatLoading = true) :
    handleChatSubmit now stamp st = st ∧
    step st (Event.chatSubmit now stamp) = st ∧
    (handleChatSubmit now stamp st).chatMessages = st.chatMessages ∧
    (handleChatSubmit now stamp st).chatInput = st.chatInput ∧
    (handleChatSubmit now stamp st).chatPending = st.chatPending := by
  have hnoop : handleChatSubmit now stamp st = st := by
    simp [handleChatSubmit, hpending]
  refine ⟨hnoop, ?_, by rw [hnoop], by rw [hnoop], by rw [hnoop]⟩
  unfold step
  split
  · exact hnoop
  · rfl

/-- Witness of C7: a ready session with a response pending and text typed. -/
theorem chatSubmit_pending_noop_witness :
    step demoChatPending (Event.chatSubmit 9 9) = demoChatPending :=
  (chatSubmit_pending_noop demoChatPending 9 9 (by decide)).2.1

/-- C8: for every prior result list, a search with a non-blank query made in
the ready phase while no search is outstanding starts one request and leaves
the list as it is until the completion, which sets `searchResults` to
`mockResults`; and in any state with a search outstanding the completion sets
`searchResults` to `mockResults`, whatever the list held. -/
theorem search_replaces_results (st : Session) (prior : List SearchResult)
    (hready : st.currentStep = Phase.loaded) (hquery : trim st.searchQuery ≠ [])
    (hfree : st.isSearching = false) :
    (step { st with searchResults := prior } Event.searchSubmit).isSearching = true ∧
    (step { st with searchResults := prior } Event.searchSubmit).searchPending
      = st.searchPending + 1 ∧
    (step { st with searchResults := prior } Event.searchSubmit).searchResults = prior ∧
    (step (step { st with searchResults := prior } Event.searchSubmit)
      Event.searchDone).searchResults = mockResults ∧
    (step (step { st with searchResults := prior } Event.searchSubmit)
      Event.searchDone).isSearching = false ∧
    ∀ other : Session, 0 < other.searchPending →
      (step other Event.searchDone).searchResults = mockResults := by
  have hblank : (trim st.searchQuery).isEmpty = false := by
    cases ht : trim st.searchQuery with
    | nil => exact absurd ht hquery
    | cons c cs => rfl
  have hsub : step { st with searchResults := prior } Event.searchSubmit
      = { st with searchResults := prior, isSearching := true,
                  searchPending := st.searchPending + 1 } := by
    simp [step, enabled, hready, fire, handleFrameSearch, hblank, hfree]
  have hdone : ∀ other : Session, 0 < other.searchPending →
      step other Event.searchDone = handleFrameSearchResume other := by
    intro other hp
    simp [step, enabled, hp, fire]
  refine ⟨by rw [hsub], by rw [hsub], by rw [hsub], ?_, ?_, ?_⟩
  · rw [hdone _ (by rw [hsub]; exact Nat.succ_pos _)]
    rfl
  · rw [hdone _ (by rw [hsub]; exact Nat.succ_pos _)]
    rfl
  · intro other hp
    rw [hdone other hp]
    rfl

/-- Witness of C8: a second query over a list left by an earlier one. -/
theorem search_replaces_results_witness :
    (step (step { demoSearch with searchResults := demoPrior } Event.searchSubmit)
      Event.searchDone).searchResults = mockResults :=
  (search_replaces_results demoSearch demoPrior (by decide) (by decide) (by decide)).2.2.2.1

/-- C9: along every run from the initial state, the chat messages before a
step are a prefix of the chat messages after it. -/
theorem chatMessages_append_only (events : List Event) (e : Event) :
    (run Session.initial events).chatMessages
      <+: (step (run Session.initial events) e).chatMessages := by
  have hcons := consistent_run Session.initial events consistent_initial
  generalize run Session.initial events = st at hcons
  unfold step
  by_cases hen : enabled st e = true
  · rw [if_pos hen]
    cases e with
    | setVideoUrl v => exact List.prefix_refl _
    | setChatInput v => exact List.prefix_refl _
    | setSearchQuery v => exact List.prefix_refl _
    | setHoveredTimestamp v => exact List.prefix_refl _
    | videoSubmit =>
      have hf : fire st Event.videoSubmit = handleVideoSubmit st := rfl
      cases hx : extractVideoId st.videoUrl with
      | none =>
        rw [hf, handleVideoSubmit_invalid st hx]
      | some id =>
        rw [hf, handleVideoSubmit_valid st id hx]
    | analysisDone now stamp =>
      have hp : 0 < st.analysisPending := by simpa [enabled] using hen
      have hproc : st.currentStep = Phase.processing := by
        by_contra hne
        have h2 := hcons.2.1
        rw [if_neg hne] at h2
        omega
      have hnil : st.chatMessages = [] := (hcons.2.2.2.2 (by simp [hproc])).1
      rw [hnil]
      exact List.nil_prefix
    | chatSubmit now stamp =>
      simp only [fire, handleChatSubmit]
      split
      · exact List.prefix_refl _
      · exact List.prefix_append _ _
    | chatDone now stamp => exact List.prefix_append _ _
    | searchSubmit =>
      simp only [fire, handleFrameSearch]
      split <;> exact List.prefix_refl _
    | searchDone => exact List.prefix_refl _
  · rw [if_neg hen]

/-- C10: in every state of a run from the initial state at most one request of
each kind is outstanding, and a loading flag is set exactly while a request of
its kind is outstanding; a video, chat or search submission made there while
the flag of its kind is set starts no request.  For chat and search the guard
is in the handler and holds in any state. -/
theorem one_request_per_kind (events : List Event) :
    ((run Session.initial events).analysisPending ≤ 1 ∧
      (run Session.initial events).chatPending ≤ 1 ∧
      (run Session.initial events).searchPending ≤ 1) ∧
    ((run Session.initial events).isProcessing = true ↔
      (run Session.initial events).analysisPending = 1) ∧
    ((run Session.initial events).isChatLoading = true ↔
      (run Session.initial events).chatPending = 1) ∧
    ((run Session.initial events).isSearching = true ↔
      (run Session.initial events).searchPending = 1) ∧
    ((run Session.initial events).isProcessing = true →
      step (run Session.initial events) Event.videoSubmit = run Session.initial events) ∧
    (∀ (st : Session) (now stamp : Nat), st.isChatLoading = true →
      step st (Event.chatSubmit now stamp) = st) ∧
    (∀ st : Session, st.isSearching = true → step st Event.searchSubmit = st) := by
  have hcons := consistent_run Session.initial events consistent_initial
  generalize run Session.initial events = st at hcons
  obtain ⟨h1, h2, h3, h4, _⟩ := hcons
  refine ⟨⟨?_, ?_, ?_⟩, ?_, ?_, ?_, ?_, ?_, ?_⟩
  · rw [h2]; split <;> omega
  · rw [h3]; split <;> omega
  · rw [h4]; split <;> omega
  · rw [h1, h2]
    by_cases hp : st.currentStep = Phase.processing <;> simp [hp]
  · rw [h3]
    cases st.isChatLoading <;> simp
  · rw [h4]
    cases st.isSearching <;> simp
  · intro hproc
    have hp : st.currentStep = Phase.processing := by
      rw [h1] at hproc
      simpa using hproc
    simp [step, enabled, hp]
  · intro st now stamp hl
    unfold step
    split
    · simp [fire, handleChatSubmit, hl]
    · rfl
  · intro st hl
    unfold step
    split
    · simp [fire, handleFrameSearch, hl]
    · rfl

/-! ## Extraction and the player URL -/

theorem linkPrefixes_head : ∀ p ∈ linkPrefixes, p.head? = some 'y' := by
  decide

theorem searchLink_skip (c : Char) (cs : Str) (h : c ≠ 'y') :
    searchLink (c :: cs) = searchLink cs := by
  apply searchLink_cons_of_none
  rw [matchLinkHere_eq_none]
  intro p hp tail hs
  have hy := linkPrefixes_head p hp
  cases p with
  | nil => simp at hy
  | cons a p =>
    simp only [List.head?_cons, Option.some.injEq] at hy
    simp only [List.cons_append, List.cons.injEq] at hs
    exact absurd (hs.1.trans hy) h

theorem searchLink_skip_all (pre rest : Str) (h : 'y' ∉ pre) :
    searchLink (pre ++ rest) = searchLink rest := by
  induction pre with
  | nil => rfl
  | cons a pre ih =>
    have ha : a ≠ 'y' := fun hay => h (hay ▸ List.mem_cons_self _ _)
    have hpre : 'y' ∉ pre := fun hm => h (List.mem_cons_of_mem _ hm)
    rw [List.cons_append, searchLink_skip a _ ha]
    exact ih hpre

theorem takeWhile_append_stop (f : Char → Bool) (run : Str) (c : Char) (rest : Str)
    (hrun : ∀ x ∈ run, f x = true) (hc : f c = false) :
    (run ++ c :: rest).takeWhile f = run := by
  induction run with
  | nil => simp [List.takeWhile, hc]
  | cons a run ih =>
    have ha : f a = true := hrun a (List.mem_cons_self _ _)
    simp only [List.cons_append, List.takeWhile, ha, List.cons.injEq, true_and]
    exact ih (fun x hx => hrun x (List.mem_cons_of_mem _ hx))

theorem segChar_of_idChar (c : Char) (h : idChar c = true) : segChar c = true := by
  by_contra hs
  have hc : c = '&' ∨ c = '\n' ∨ c = '?' ∨ c = '#' := by
    have hs' : ¬ c = '&' → ¬ c = '\n' → ¬ c = '?' → c = '#' := by
      simpa [segChar] using hs
    by_cases h1 : c = '&'
    · exact Or.inl h1
    by_cases h2 : c = '\n'
    · exact Or.inr (Or.inl h2)
    by_cases h3 : c = '?'
    · exact Or.inr (Or.inr (Or.inl h3))
    exact Or.inr (Or.inr (Or.inr (hs' h1 h2 h3)))
  rcases hc with rfl | rfl | rfl | rfl <;> revert h <;> decide

theorem extractVideoId_segChar (s r : Str) (h : extractVideoId s = some r) :
    ∀ c ∈ r, segChar c = true := by
  rw [extractVideoId_eq] at h
  cases hs : searchLink s with
  | some r' =>
    simp only [hs, Option.some.injEq] at h
    obtain ⟨_, _, tail, _, hrun, _⟩ := searchLink_sound s r' hs
    intro c hc
    rw [← h, ← hrun] at hc
    exact List.mem_takeWhile_imp hc
  | none =>
    simp only [hs] at h
    obtain ⟨rfl, _, hall⟩ := (matchBareId_eq_some s r).1 h
    exact fun c hc => segChar_of_idChar c (hall c hc)

theorem searchLink_embedUrl (id : Str) (hne : id ≠ [])
    (hseg : ∀ c ∈ id, segChar c = true) : searchLink (embedUrl id) = some id := by
  have hsplit : embedUrl id = "https://www.".toList ++
      ("youtube.com/embed/".toList ++ (id ++ "?enablejsapi=1".toList)) := by
    unfold embedUrl
    have : "https://www.youtube.com/embed/".toList
        = "https://www.".toList ++ "youtube.com/embed/".toList := by decide
    rw [this, List.append_assoc, List.append_assoc]
  rw [hsplit, searchLink_skip_all _ _ (by decide)]
  have hocc : LinkOccurrence
      ("youtube.com/embed/".toList ++ (id ++ "?enablejsapi=1".toList)) []
      "youtube.com/embed/".toList (id ++ "?enablejsapi=1".toList) := by
    refine ⟨by decide, by simp, ?_⟩
    cases id with
    | nil => exact absurd rfl hne
    | cons c cs => exact ⟨c, rfl, hseg c (List.mem_cons_self _ _)⟩
  rw [searchLink_of_here _ _ (matchLinkHere_occurrence _ _ _ hocc)]
  have htail : "?enablejsapi=1".toList = '?' :: "enablejsapi=1".toList := by decide
  rw [htail, takeWhile_append_stop segChar id '?' _ hseg (by decide)]

/-- C11: for every non-empty identifier `id` with none of `&`, newline, `?`,
`#`, extracting from the player URL `https://www.youtube.com/embed/` + `id` +
`?enablejsapi=1` returns `id`; every identifier `extractVideoId` returns is
of that kind, so extracting from the player URL built from a result returns
that result again. -/
theorem extractVideoId_embedUrl (id : Str) (hne : id ≠ [])
    (hseg : ∀ c ∈ id, segChar c = true) :
    extractVideoId (embedUrl id) = some id ∧
    ∀ s r : Str, extractVideoId s = some r →
      (r ≠ [] ∧ ∀ c ∈ r, segChar c = true) ∧ extractVideoId (embedUrl r) = some r := by
  have hone : ∀ r : Str, r ≠ [] → (∀ c ∈ r, segChar c = true) →
      extractVideoId (embedUrl r) = some r := by
    intro r hr hall
    rw [extractVideoId_eq, searchLink_embedUrl r hr hall]
  refine ⟨hone id hne hseg, ?_⟩
  intro s r hs
  have hr := extractVideoId_ne_nil s r hs
  have hall := extractVideoId_segChar s r hs
  exact ⟨⟨hr, hall⟩, hone r hr hall⟩

/-- Witness of C11: the player URL of `dQw4w9WgXcQ`, and the player URL of the
identifier extracted from `https://youtu.be/dQw4w9WgXcQ`. -/
theorem extractVideoId_embedUrl_witness :
    extractVideoId (embedUrl demoId) = some demoId ∧
    (extractVideoId demoLink = some demoId → extractVideoId (embedUrl demoId) = some demoId) :=
  have h := extractVideoId_embedUrl demoId (by decide) (by decide)
  ⟨h.1, fun hs => (h.2 demoLink demoId hs).2⟩


end VideoAnalysis
